import Mathlib

/-!
Verification of the preflight-ai/cli core pipeline.

A shallow embedding of the context-expansion, heuristic-analysis and
auto-fix pipeline of the `preflight-ai/cli` repository, together with
theorems settling the specification claims about it.

Embedded source files:
* `src/modules/contextResolver.ts` — bounded BFS import expansion
  (`expandContextByImports`),
* `src/modules/groq.ts` — the heuristic diff scanner (`heuristicScan`),
  best-effort JSON issue extraction (`safeParseIssues`, `normalizeIssues`)
  and the remote-analysis entry point (`analyzeWithGroq`),
* `src/modules/autofix.ts` — the safe auto-fix transforms
  (`SAFE_AUTOFIX_PATTERNS`), `canAutoFix`, `applyIssueFix`,
  `applyAutoFixes`.

JavaScript strings are modelled by `String`/`List Char`; JavaScript regular
expressions are modelled by an executable regular-expression evaluator
(`Rx`, Brzozowski derivatives) with each source pattern transliterated to an
`Rx` term, except for the one pattern using a negative lookahead
(`missingAlt`), which is compiled by hand to an equivalent executable test.
The filesystem is modelled as a map `String → Option String` (path to
content of the readable files); synchronous reads/writes become explicit
state passing, and the single awaited network call of `analyzeWithGroq`
becomes an explicit `RemoteOutcome` parameter.
-/

/-- The `ContextFile` of `contextResolver.ts`: a path together with (truncated)
file content. -/
structure ContextFile where
  path : String
  content : String
deriving Repr, DecidableEq

/-- JSON values as produced by `JSON.parse`.  Numbers keep their source
lexeme: no claim depends on numeric semantics. -/
inductive Json where
  | null : Json
  | bool (b : Bool) : Json
  | num (raw : String) : Json
  | str (s : String) : Json
  | arr (elems : List Json) : Json
  | obj (fields : List (String × Json)) : Json
deriving Repr

/-- The `ReviewIssue` record of `groq.ts`.  `severity` holds the raw value
(normalization copies whatever JSON value the remote response carried, so it
is a `Json`, not necessarily a string). -/
structure ReviewIssue where
  file : String
  problem : String
  fix : String
  severity : Option Json := none
  line : Option Nat := none
  snippet : Option String := none
  autoFixable : Option Bool := none
  fixedCode : Option String := none
deriving Repr

/-! ## JavaScript string helpers -/

/-- Does `l` begin with `p`? (`String.prototype.startsWith` on char lists). -/
def startsWithL : List Char → List Char → Bool
  | _, [] => true
  | [], _ :: _ => false
  | c :: cs, d :: ds => c = d && startsWithL cs ds

/-- JS `String.prototype.includes`: does `needle` occur as a contiguous
substring of `hay`? -/
def includesL (hay needle : List Char) : Bool :=
  match hay with
  | [] => startsWithL [] needle
  | _ :: rest => startsWithL hay needle || includesL rest needle

/-- JavaScript `\s` (the ASCII part, which is all the sources use). -/
def jsWsChar (c : Char) : Bool :=
  c = ' ' || c = '\t' || c = '\n' || c = '\r' || c = '\x0b' || c = '\x0c'

/-- JS `String.prototype.trim` (its whitespace set restricted to the ASCII
whitespace all inputs of interest use). -/
def trimL (l : List Char) : List Char :=
  ((l.dropWhile jsWsChar).reverse.dropWhile jsWsChar).reverse

/-- JS `String.prototype.split("\n")` on char lists: the list of lines (never
empty; `[[]]` for the empty string). -/
def splitNl : List Char → List (List Char)
  | [] => [[]]
  | c :: rest =>
    if c = '\n' then [] :: splitNl rest
    else
      match splitNl rest with
      | p :: ps => (c :: p) :: ps
      | [] => [[c]]

/-- Rejoin lines with `'\n'`: left inverse of `splitNl`. -/
def joinNl : List (List Char) → List Char
  | [] => []
  | [p] => p
  | p :: ps => p ++ '\n' :: joinNl ps

/-! ## Regular expressions (Brzozowski derivatives)

`rxSearch r cs` is `new RegExp(r).test(cs)`: does any substring of `cs`
match `r`?  Lookaheads are not representable; the sole pattern using one is
compiled by hand below (`missingAltTest`). -/

inductive Rx where
  | emp : Rx
  | eps : Rx
  | cls (p : Char → Bool) : Rx
  | alt (a b : Rx) : Rx
  | cat (a b : Rx) : Rx
  | star (a : Rx) : Rx

def Rx.nullable : Rx → Bool
  | .emp => false
  | .eps => true
  | .cls _ => false
  | .alt a b => a.nullable || b.nullable
  | .cat a b => a.nullable && b.nullable
  | .star _ => true

def Rx.deriv : Rx → Char → Rx
  | .emp, _ => .emp
  | .eps, _ => .emp
  | .cls p, c => if p c then .eps else .emp
  | .alt a b, c => .alt (a.deriv c) (b.deriv c)
  | .cat a b, c =>
    if a.nullable then .alt (.cat (a.deriv c) b) (b.deriv c)
    else .cat (a.deriv c) b
  | .star a, c => .cat (a.deriv c) (.star a)

/-- Does some (possibly empty) leading segment of `cs` match `r`? -/
def rxHere : Rx → List Char → Bool
  | r, [] => r.nullable
  | r, c :: cs => r.nullable || rxHere (r.deriv c) cs

/-- JS `RegExp.prototype.test`: does `r` match starting at some position? -/
def rxSearch (r : Rx) : List Char → Bool
  | [] => r.nullable
  | c :: cs => rxHere r (c :: cs) || rxSearch r (c :: cs).tail

/-- Literal string pattern. -/
def Rx.lit (s : String) : Rx :=
  s.toList.foldr (fun c r => .cat (.cls (fun d => d = c)) r) .eps

/-- Character class `[…]`. -/
def Rx.oneOf (cs : List Char) : Rx := .cls (fun d => cs.contains d)

/-- Negated character class `[^…]`. -/
def Rx.noneOf (cs : List Char) : Rx := .cls (fun d => !cs.contains d)

/-- Pattern `r+`. -/
def Rx.many1 (r : Rx) : Rx := .cat r (.star r)

/-- Pattern `r?`. -/
def Rx.opt (r : Rx) : Rx := .alt .eps r

/-- Sequencing of a list of patterns. -/
def Rx.seq (rs : List Rx) : Rx := rs.foldr Rx.cat .eps

/-- JavaScript `\w` = `[A-Za-z0-9_]`. -/
def wordChar (c : Char) : Bool := c.isAlpha || c.isDigit || c = '_'

/-- The two quote characters `'` and `"` (class `['"]`). -/
def quoteChars : List Char := [Char.ofNat 39, '"']

/-! ## The heuristic pattern bank (`HEURISTIC_PATTERNS` of `groq.ts`)

Each `Rx` term transliterates the JavaScript regular-expression literal of
the same name. -/

/-- Pattern `/JSON\.parse\(\s*[^)]+\s*\)\.\w+/` -/
def jsonParsePat : Rx :=
  Rx.seq [Rx.lit "JSON.parse(", .star (.cls jsWsChar), Rx.many1 (Rx.noneOf [')']),
    .star (.cls jsWsChar), Rx.lit ").", Rx.many1 (.cls wordChar)]

/-- Pattern `/\.\w+\(\)\.then\(/` -/
def unhandledPromisePat : Rx :=
  Rx.seq [Rx.lit ".", Rx.many1 (.cls wordChar), Rx.lit "().then("]

/-- Pattern `/catch\(/` -/
def catchHandlerPat : Rx := Rx.lit "catch("

/-- Pattern `/eval\(/` -/
def evalPat : Rx := Rx.lit "eval("

/-- Pattern `/(password|secret|api[_-]?key|token)[\s]*=[\s]*['"][^'"]+['"]/i`.
The `i` flag is modelled by testing the lowercased line against this
lowercase pattern (all its literals are lowercase and its character classes
are case-indifferent). -/
def hardcodedSecretPat : Rx :=
  Rx.seq [
    .alt (Rx.lit "password") (.alt (Rx.lit "secret")
      (.alt (Rx.seq [Rx.lit "api", Rx.opt (Rx.oneOf ['_', '-']), Rx.lit "key"])
        (Rx.lit "token"))),
    .star (.cls jsWsChar), Rx.lit "=", .star (.cls jsWsChar),
    Rx.oneOf quoteChars, Rx.many1 (Rx.noneOf quoteChars), Rx.oneOf quoteChars]

/-- Pattern `/innerHTML[\s]*=/` -/
def innerHTMLPat : Rx :=
  Rx.seq [Rx.lit "innerHTML", .star (.cls jsWsChar), Rx.lit "="]

/-- Pattern `/DOMPurify|sanitize/` -/
def sanitizePat : Rx := .alt (Rx.lit "DOMPurify") (Rx.lit "sanitize")

/-- Pattern `/<img[^>]+src\s*=\s*["']\s*["']/` -/
def emptySrcPat : Rx :=
  Rx.seq [Rx.lit "<img", Rx.many1 (Rx.noneOf ['>']), Rx.lit "src",
    .star (.cls jsWsChar), Rx.lit "=", .star (.cls jsWsChar),
    Rx.oneOf quoteChars, .star (.cls jsWsChar), Rx.oneOf quoteChars]

/-- Pattern `/<a[^>]+href\s*=\s*["']\s*["']/` -/
def emptyHrefPat : Rx :=
  Rx.seq [Rx.lit "<a", Rx.many1 (Rx.noneOf ['>']), Rx.lit "href",
    .star (.cls jsWsChar), Rx.lit "=", .star (.cls jsWsChar),
    Rx.oneOf quoteChars, .star (.cls jsWsChar), Rx.oneOf quoteChars]

/-- Pattern `/addEventListener\(/` -/
def addEventListenerPat : Rx := Rx.lit "addEventListener("

/-- Pattern `/setInterval\(/` -/
def setIntervalPat : Rx := Rx.lit "setInterval("

/-- Pattern `/<img/` -/
def imgTagPat : Rx := Rx.lit "<img"

/-- Helper for `missingAltTest`: given the characters following a `<img`
occurrence, is there a non-empty run of non-`>` characters after which the
text does not continue with `alt=`?  This is exactly what the backtracking
engine decides for the tail `[^>]+(?!alt=)` of the `missingAlt` pattern. -/
def lookNoAlt : List Char → Bool
  | [] => false
  | c :: rest =>
    c ≠ '>' && (!startsWithL rest "alt=".toList || lookNoAlt rest)

/-- Pattern `/<img[^>]+(?!alt=)/` (`missingAlt`).  The negative lookahead cannot be
expressed as a pure regular expression, so the backtracking semantics are
compiled by hand: the pattern matches iff some occurrence of `<img` is
followed by at least one non-`>` character such that, after one such run,
the text does not continue with `alt=`. -/
def missingAltTest : List Char → Bool
  | [] => false
  | c :: rest =>
    (startsWithL (c :: rest) "<img".toList && lookNoAlt ((c :: rest).drop 4)) ||
      missingAltTest rest

/-! ## The diff state machine (`heuristicScan` of `groq.ts`) -/

/-- Value of the decimal digit run `ds` (`parseInt`, digits only). -/
def digitsToNat (ds : List Char) : Nat :=
  ds.foldl (fun n c => n * 10 + (c.toNat - 48)) 0

/-- JS `line.match(/\+(\d+)/)` followed by `parseInt(match[1], 10)`: the value
of the first maximal digit run immediately preceded by `+`, if any. -/
def matchPlusDigits : List Char → Option Nat
  | [] => none
  | c :: rest =>
    if c = '+' then
      match rest with
      | d :: _ =>
        if d.isDigit then some (digitsToNat (rest.takeWhile Char.isDigit))
        else matchPlusDigits rest
      | [] => none
    else matchPlusDigits rest

/-- The body of `heuristicScan`'s added-line branch: every heuristic rule is
run, in source order, against the added text `added` (the line with its `+`
prefix stripped), attributing file `currentFile` and line `lineNumber`. -/
def scanAddedLine (currentFile : String) (lineNumber : Nat) (added : List Char) :
    List ReviewIssue :=
  let cs := added
  (if includesL cs "JSON.parse".toList && rxSearch jsonParsePat cs then
    [{ file := currentFile,
       problem := "Unsafe JSON.parse - accessing properties without validation",
       fix := "Validate parsed data before accessing properties",
       severity := some (.str "critical"), line := some lineNumber,
       snippet := some (String.mk (trimL added)) }] else []) ++
  (if includesL cs ".then(".toList && rxSearch unhandledPromisePat cs &&
      !rxSearch catchHandlerPat cs then
    [{ file := currentFile,
       problem := "Unhandled promise rejection - missing .catch()",
       fix := "Add .catch() handler or use try/catch",
       severity := some (.str "critical"), line := some lineNumber,
       snippet := some (String.mk (trimL added)) }] else []) ++
  (if includesL cs "eval".toList && rxSearch evalPat cs then
    [{ file := currentFile,
       problem := "Security: eval() executes arbitrary code",
       fix := "Use JSON.parse() or safer alternatives",
       severity := some (.str "critical"), line := some lineNumber,
       snippet := some (String.mk (trimL added)) }] else []) ++
  (if (includesL cs "password".toList || includesL cs "secret".toList ||
       includesL cs "key".toList || includesL cs "token".toList) &&
      rxSearch hardcodedSecretPat (cs.map Char.toLower) then
    [{ file := currentFile,
       problem := "Security: Hardcoded secret detected",
       fix := "Move to environment variables (.env)",
       severity := some (.str "critical"), line := some lineNumber,
       snippet := some (String.mk (trimL added)) }] else []) ++
  (if includesL cs "innerHTML".toList && rxSearch innerHTMLPat cs &&
      !rxSearch sanitizePat cs then
    [{ file := currentFile,
       problem := "XSS vulnerability: innerHTML without sanitization",
       fix := "Use textContent or sanitize with DOMPurify",
       severity := some (.str "critical"), line := some lineNumber,
       snippet := some (String.mk (trimL added)) }] else []) ++
  (if includesL cs "<img".toList && includesL cs "src=\"\"".toList &&
      rxSearch emptySrcPat cs then
    [{ file := currentFile,
       problem := "Empty img src causes 404 errors",
       fix := "Provide valid src or remove tag",
       severity := some (.str "critical"), line := some lineNumber,
       snippet := some (String.mk (trimL added)) }] else []) ++
  (if includesL cs "<a".toList && includesL cs "href=\"\"".toList &&
      rxSearch emptyHrefPat cs then
    [{ file := currentFile,
       problem := "Empty href causes page reload",
       fix := "Use valid href or replace with button",
       severity := some (.str "critical"), line := some lineNumber,
       snippet := some (String.mk (trimL added)) }] else []) ++
  (if includesL cs "addEventListener".toList && rxSearch addEventListenerPat cs then
    [{ file := currentFile,
       problem := "Memory leak: addEventListener without cleanup",
       fix := "Remove listener in cleanup function",
       severity := some (.str "warning"), line := some lineNumber,
       snippet := some (String.mk (trimL added)) }] else []) ++
  (if includesL cs "setInterval".toList && rxSearch setIntervalPat cs then
    [{ file := currentFile,
       problem := "Memory leak: setInterval without clearInterval",
       fix := "Call clearInterval in cleanup",
       severity := some (.str "warning"), line := some lineNumber,
       snippet := some (String.mk (trimL added)) }] else []) ++
  (if includesL cs "<img".toList && rxSearch imgTagPat cs &&
      missingAltTest cs then
    [{ file := currentFile,
       problem := "Accessibility: Missing alt attribute",
       fix := "Add alt text for screen readers",
       severity := some (.str "warning"), line := some lineNumber,
       snippet := some (String.mk (trimL added)) }] else [])

/-- The line loop of `heuristicScan`, carrying the `currentFile` /
`lineNumber` state. -/
def scanLines : List (List Char) → String → Nat → List ReviewIssue
  | [], _, _ => []
  | line :: rest, currentFile, lineNumber =>
    if startsWithL line "+++ b/".toList then
      scanLines rest (String.mk (trimL (line.drop 6))) 0
    else if startsWithL line "@@".toList then
      scanLines rest currentFile
        (match matchPlusDigits line with
         | some n => n
         | none => lineNumber)
    else if startsWithL line "+".toList && !startsWithL line "+++".toList then
      scanAddedLine currentFile (lineNumber + 1) (line.drop 1) ++
        scanLines rest currentFile (lineNumber + 1)
    else scanLines rest currentFile lineNumber

/-- Function `heuristicScan(diff, _context)` of `groq.ts`. -/
def heuristicScan (diff : String) (_context : List ContextFile) :
    List ReviewIssue :=
  scanLines (splitNl diff.toList) "" 0

/-! ## `JSON.parse`

A strict JSON parser (recursive descent, fuel-indexed; the fuel passed by
`jsonParse` is generous enough for every input whose recursion depth and
element count are bounded by its length, which covers all inputs the claims
touch — both sides of every theorem use the same parser). -/

/-- JSON insignificant whitespace. -/
def isJsonWs (c : Char) : Bool := c = ' ' || c = '\t' || c = '\n' || c = '\r'

def skipWs (cs : List Char) : List Char := cs.dropWhile isJsonWs

def hexVal (c : Char) : Option Nat :=
  if c.isDigit then some (c.toNat - 48)
  else if 'a' ≤ c && c ≤ 'f' then some (c.toNat - 87)
  else if 'A' ≤ c && c ≤ 'F' then some (c.toNat - 55)
  else none

/-- Body of a JSON string, after the opening quote: returns the decoded
characters and the remainder after the closing quote. -/
def parseStrChars : List Char → Option (List Char × List Char)
  | [] => none
  | '"' :: rest => some ([], rest)
  | '\\' :: 'n' :: rest => (parseStrChars rest).map (fun p => ('\n' :: p.1, p.2))
  | '\\' :: 't' :: rest => (parseStrChars rest).map (fun p => ('\t' :: p.1, p.2))
  | '\\' :: 'r' :: rest => (parseStrChars rest).map (fun p => ('\r' :: p.1, p.2))
  | '\\' :: 'b' :: rest => (parseStrChars rest).map (fun p => ('\x08' :: p.1, p.2))
  | '\\' :: 'f' :: rest => (parseStrChars rest).map (fun p => ('\x0c' :: p.1, p.2))
  | '\\' :: '/' :: rest => (parseStrChars rest).map (fun p => ('/' :: p.1, p.2))
  | '\\' :: '"' :: rest => (parseStrChars rest).map (fun p => ('"' :: p.1, p.2))
  | '\\' :: '\\' :: rest => (parseStrChars rest).map (fun p => ('\\' :: p.1, p.2))
  | '\\' :: 'u' :: h1 :: h2 :: h3 :: h4 :: rest =>
    match hexVal h1, hexVal h2, hexVal h3, hexVal h4 with
    | some a, some b, some c, some d =>
      (parseStrChars rest).map
        (fun p => (Char.ofNat (((a * 16 + b) * 16 + c) * 16 + d) :: p.1, p.2))
    | _, _, _, _ => none
  | '\\' :: _ => none
  | c :: rest =>
    if c.toNat < 32 then none
    else (parseStrChars rest).map (fun p => (c :: p.1, p.2))

/-- Fractional part `(\.\d+)?` of a JSON number. -/
def lexFrac : List Char → Option (List Char × List Char)
  | '.' :: r =>
    let ds := r.takeWhile Char.isDigit
    if ds.isEmpty then none else some ('.' :: ds, r.drop ds.length)
  | cs => some ([], cs)

/-- Exponent part `([eE][+-]?\d+)?` of a JSON number. -/
def lexExp : List Char → Option (List Char × List Char)
  | c :: r =>
    if c = 'e' || c = 'E' then
      let sr : List Char × List Char :=
        match r with
        | s :: r1 => if s = '+' || s = '-' then ([s], r1) else ([], s :: r1)
        | [] => ([], [])
      let ds := sr.2.takeWhile Char.isDigit
      if ds.isEmpty then none else some (c :: sr.1 ++ ds, sr.2.drop ds.length)
    else some ([], c :: r)
  | [] => some ([], [])

/-- A JSON number lexeme (strict grammar: optional `-`, `0` or a nonzero-led
digit run, optional fraction, optional exponent). -/
def lexNumber (cs : List Char) : Option (String × List Char) := do
  let sn : List Char × List Char :=
    match cs with
    | '-' :: r => (['-'], r)
    | _ => ([], cs)
  let intDs := sn.2.takeWhile Char.isDigit
  if intDs.isEmpty then none
  else if intDs.length > 1 && intDs.head? = some '0' then none
  else
    let rest0 := sn.2.drop intDs.length
    let (fr, rest1) ← lexFrac rest0
    let (ex, rest2) ← lexExp rest1
    some (String.mk (sn.1 ++ intDs ++ fr ++ ex), rest2)

mutual

/-- Parse one JSON value (leading whitespace allowed). -/
def parseVal : Nat → List Char → Option (Json × List Char)
  | 0, _ => none
  | fuel + 1, cs =>
    match skipWs cs with
    | '{' :: rest =>
      match skipWs rest with
      | '}' :: rest1 => some (.obj [], rest1)
      | rest1 => (parseMembers fuel rest1).map (fun p => (.obj p.1, p.2))
    | '[' :: rest =>
      match skipWs rest with
      | ']' :: rest1 => some (.arr [], rest1)
      | rest1 => (parseElems fuel rest1).map (fun p => (.arr p.1, p.2))
    | '"' :: rest => (parseStrChars rest).map (fun p => (.str (String.mk p.1), p.2))
    | 't' :: 'r' :: 'u' :: 'e' :: rest => some (.bool true, rest)
    | 'f' :: 'a' :: 'l' :: 's' :: 'e' :: rest => some (.bool false, rest)
    | 'n' :: 'u' :: 'l' :: 'l' :: rest => some (.null, rest)
    | rest => (lexNumber rest).map (fun p => (.num p.1, p.2))

/-- Parse the elements of a non-empty array (position: at the first
element). -/
def parseElems : Nat → List Char → Option (List Json × List Char)
  | 0, _ => none
  | fuel + 1, cs => do
    let (v, rest) ← parseVal fuel cs
    match skipWs rest with
    | ']' :: rest1 => some ([v], rest1)
    | ',' :: rest1 => (parseElems fuel rest1).map (fun p => (v :: p.1, p.2))
    | _ => none

/-- Parse the members of a non-empty object (position: at the first key). -/
def parseMembers : Nat → List Char → Option (List (String × Json) × List Char)
  | 0, _ => none
  | fuel + 1, cs =>
    match skipWs cs with
    | '"' :: rest => do
      let (key, rest1) ← parseStrChars rest
      match skipWs rest1 with
      | ':' :: rest2 => do
        let (v, rest3) ← parseVal fuel rest2
        match skipWs rest3 with
        | '}' :: rest4 => some ([(String.mk key, v)], rest4)
        | ',' :: rest4 =>
          (parseMembers fuel rest4).map (fun p => ((String.mk key, v) :: p.1, p.2))
        | _ => none
      | _ => none
    | _ => none

end

/-- JS `JSON.parse(text)`: `some` value on success, `none` where the
JavaScript call throws. -/
def jsonParse (text : String) : Option Json :=
  match parseVal (4 * (text.length + 1)) text.toList with
  | some (v, rest) => if (skipWs rest).isEmpty then some v else none
  | none => none

/-! ## Issue normalization and best-effort extraction (`groq.ts`) -/

/-- JavaScript property access `obj[k]` on a parsed JSON value: `none` is
`undefined`.  Duplicate keys: the last occurrence wins, as in `JSON.parse`. -/
def jsGetField (j : Json) (k : String) : Option Json :=
  match j with
  | .obj fields => fields.foldl (fun acc f => if f.1 = k then some f.2 else acc) none
  | _ => none

mutual

/-- JavaScript `String(v)` on a parsed JSON value.  Arrays stringify as the
comma-join of their elements (`null` elements become empty), objects as
`"[object Object]"`; numbers are rendered by their source lexeme. -/
def jsToString : Json → String
  | .null => "null"
  | .bool true => "true"
  | .bool false => "false"
  | .num raw => raw
  | .str s => s
  | .obj _ => "[object Object]"
  | .arr xs => String.intercalate "," (jsArrElems xs)

/-- The element renderings of an array under `Array.prototype.toString`
(`null` elements render empty). -/
def jsArrElems : List Json → List String
  | [] => []
  | .null :: rest => "" :: jsArrElems rest
  | v :: rest => jsToString v :: jsArrElems rest

end

/-- JS `String(v ?? "")`: the empty string when the field is absent
(`undefined`) or `null`. -/
def orEmptyString : Option Json → String
  | none => ""
  | some .null => ""
  | some v => jsToString v

/-- The body of `normalizeIssues`' `arr.map(...)` on one element.  `none`
models the TypeError that `it.file` raises when the element is the JSON
value `null` (a property access on `null` throws; every other parsed value
— number, string, boolean, array, object — yields `undefined` or the field
value).  The exception propagates out of `normalizeIssues` into the `try`
of `safeParseIssues`. -/
def normalizeIssue (it : Json) : Option ReviewIssue :=
  match it with
  | .null => none
  | _ =>
    some { file := orEmptyString (jsGetField it "file")
           problem := orEmptyString (jsGetField it "problem")
           fix := orEmptyString (jsGetField it "fix")
           severity := some (match jsGetField it "severity" with
             | none => .str "warning"
             | some .null => .str "warning"
             | some v => v) }

/-- The `arr.map(...)` of `normalizeIssues`: the normalized elements, or
`none` when any element made the map throw. -/
def normalizeMapped : List Json → Option (List ReviewIssue)
  | [] => some []
  | it :: rest =>
    match normalizeIssue it, normalizeMapped rest with
    | some r, some rs => some (r :: rs)
    | _, _ => none

/-- Function `normalizeIssues` of `groq.ts`: each parsed item is reduced to
`file`/`problem`/`fix`/`severity`, and items with a falsy (empty) `file`,
`problem` or `fix` are dropped; `none` models the call throwing (a `null`
array element), to be caught by the caller's `try`. -/
def normalizeIssues (arr : List Json) : Option (List ReviewIssue) :=
  (normalizeMapped arr).map
    (fun mapped => mapped.filter
      (fun it => it.file != "" && it.problem != "" && it.fix != ""))

/-- The suffix of `cs` starting right after its first `']'`, including that
`']'` as head of the returned prefix accumulation; `none` if there is no
`']'`. -/
def takeThroughRBracket : List Char → Option (List Char)
  | [] => none
  | c :: rest =>
    if c = ']' then some [']']
    else (takeThroughRBracket rest).map (fun l => c :: l)

/-- JS `text.match(/\[([\s\S]*?)\]/)`, first capture group 0: the substring
from the first `[` through the first `]` after it (lazy, not
bracket-balanced), if any. -/
def lazyBracketSlice : List Char → Option (List Char)
  | [] => none
  | c :: rest =>
    if c = '[' then (takeThroughRBracket rest).map (fun l => '[' :: l)
    else lazyBracketSlice rest

/-- One `try` block of `safeParseIssues` (both blocks have the same shape):
`some issues` when the block returns — `JSON.parse` succeeded, yielded an
array, and `normalizeIssues` did not throw — and `none` when control falls
out of the block (parse failure, non-array value, or a caught
normalization throw). -/
def tryParseIssues (s : String) : Option (List ReviewIssue) :=
  match jsonParse s with
  | some (.arr xs) => normalizeIssues xs
  | _ => none

/-- Function `safeParseIssues` of `groq.ts`: the direct-parse `try` block;
if it falls through, the same block on the lazily matched bracket slice;
otherwise `[]`. -/
def safeParseIssues (text : String) : List ReviewIssue :=
  match tryParseIssues text with
  | some issues => issues
  | none =>
    match lazyBracketSlice text.toList with
    | some slice =>
      match tryParseIssues (String.mk slice) with
      | some issues => issues
      | none => []
    | none => []

/-! ## `analyzeWithGroq`

The single awaited network interaction is modelled by an explicit outcome:
the `fetch`/`response.json()` chain threw, the response was non-OK (the
source builds an error message and throws, landing in the same `catch`), or
it succeeded with a message content string. -/

inductive RemoteOutcome where
  | thrown (msg : String) : RemoteOutcome
  | httpError (status : Nat) (body : String) : RemoteOutcome
  | ok (content : String) : RemoteOutcome

/-- Function `analyzeWithGroq` of `groq.ts`.  `.error` models a propagated
exception, `.ok` a returned issue list. -/
def analyzeWithGroq (apiKey : Option String) (outcome : RemoteOutcome)
    (diff : String) (contextFiles : List ContextFile) :
    Except String (List ReviewIssue) :=
  match apiKey with
  | none => .error "Missing GROQ_API_KEY in environment. Set it in .env"
  | some _ =>
    match outcome with
    | .thrown _ => .ok (heuristicScan diff contextFiles)
    | .httpError _ _ => .ok (heuristicScan diff contextFiles)
    | .ok content =>
      let issues := safeParseIssues content
      .ok (if issues.isEmpty then heuristicScan diff contextFiles else issues)

/-! ## Safe auto-fix transforms (`SAFE_AUTOFIX_PATTERNS` of `autofix.ts`)

Each global-`replace` call is compiled to an equivalent left-to-right scan:
at each position the pattern is tried; on a match the replacement is
emitted and scanning resumes after the matched text, otherwise one
character is emitted and scanning advances by one.  The `add-semicolons`
and `quotes-single` entries of the table are not wired to any detector
(`applyIssueFix` never selects them), so they are not embedded. -/

/-- Scan for `"var-to-const"`: `code.replace(/\bvar\s+(\w+)/g, "const $1")`.
The boolean argument records whether the previous character was a word
character (for the `\b` boundary; `false` at the start of the text).
On a match, `var`, the whitespace run and the identifier are consumed and
`const ` plus the identifier is emitted. -/
def vtcGo : Bool → List Char → List Char
  | _, [] => []
  | prevW, c :: cs =>
    if !prevW && startsWithL (c :: cs) "var".toList then
      let after := (c :: cs).drop 3
      let wsRun := after.takeWhile jsWsChar
      let ident := (after.drop wsRun.length).takeWhile wordChar
      if wsRun.length > 0 && ident.length > 0 then
        "const ".toList ++ ident ++
          vtcGo true (cs.drop (2 + wsRun.length + ident.length))
      else c :: vtcGo (wordChar c) cs
    else c :: vtcGo (wordChar c) cs
termination_by _ l => l.length
decreasing_by
  · simp [List.length_drop]; omega
  · simp
  · simp

/-- Transform `SAFE_AUTOFIX_PATTERNS["var-to-const"]`. -/
def varToConst (code : String) : String := String.mk (vtcGo false code.toList)

/-- Number of characters matched by
`/console\.(log|debug|info)\([^)]*\);?\n?/` at the head of `l` (`none` if
the pattern does not match there).  `[^)]*\)` reaches exactly to the first
`)`; the optional `;` and `\n` are consumed greedily. -/
def consoleCallLen (l : List Char) : Option Nat :=
  let tryOne (p : String) : Option Nat :=
    if startsWithL l p.toList then
      match (l.drop p.length).findIdx? (fun c => c = ')') with
      | some k =>
        let n1 := p.length + k + 1
        let n2 := if (l.drop n1).head? = some ';' then n1 + 1 else n1
        let n3 := if (l.drop n2).head? = some '\n' then n2 + 1 else n2
        some n3
      | none => none
    else none
  (tryOne "console.log(").orElse (fun _ =>
    (tryOne "console.debug(").orElse (fun _ => tryOne "console.info("))

/-- Scan for `"remove-console"`:
`code.replace(/console\.(log|debug|info)\([^)]*\);?\n?/g, "")`.  The `Nat`
argument is fuel bounding the number of scan steps; each step consumes at
least one character, so the fuel `code.length` supplied by `removeConsole`
is never exhausted (`rcGo_fuel_irrelevant` below makes this precise). -/
def rcGo : Nat → List Char → List Char
  | _, [] => []
  | 0, l => l
  | fuel + 1, c :: cs =>
    match consoleCallLen (c :: cs) with
    | some n => rcGo fuel (cs.drop (n - 1))
    | none => c :: rcGo fuel cs

/-- Transform `SAFE_AUTOFIX_PATTERNS["remove-console"]`. -/
def removeConsole (code : String) : String :=
  String.mk (rcGo code.length code.toList)

/-- The class `[ \t]`. -/
def isSpaceTab (c : Char) : Bool := c = ' ' || c = '\t'

/-- Remove the trailing run of spaces/tabs of one line (the effect of one
match of `[ \t]+$`). -/
def dropTrailingWs (l : List Char) : List Char :=
  (l.reverse.dropWhile isSpaceTab).reverse

/-- Transform `SAFE_AUTOFIX_PATTERNS["trim-whitespace"]`:
`code.replace(/[ \t]+$/gm, "")` — with the `m` flag, `$` matches before
every `'\n'` and at the end, so the replace removes each line's trailing
space/tab run. -/
def trimWhitespace (code : String) : String :=
  String.mk (joinNl ((splitNl code.toList).map dropTrailingWs))

/-- Scan for `"strict-equality"`:
`code.replace(/([^=!])={2}([^=])/g, "$1===$2")` — a match consumes the
guard characters together with the `==`, and scanning resumes after it. -/
def seGo : List Char → List Char
  | a :: '=' :: '=' :: b :: rest =>
    if a ≠ '=' && a ≠ '!' && b ≠ '=' then
      a :: '=' :: '=' :: '=' :: b :: seGo rest
    else
      -- No match starting at `a`; the scan advances one character.  The
      -- next two positions hold `=`, which the leading `[^=!]` of the
      -- pattern rejects, so the scan resumes at `b`.
      a :: '=' :: '=' :: seGo (b :: rest)
  | c :: cs => c :: seGo cs
  | [] => []

/-- Transform `SAFE_AUTOFIX_PATTERNS["strict-equality"]`. -/
def strictEquality (code : String) : String := String.mk (seGo code.toList)

/-! ## Auto-fix classification and application (`autofix.ts`) -/

/-- Pattern `/var\s+\w+/i` (tested against the lowercased problem text). -/
def canFixVarPat : Rx :=
  Rx.seq [Rx.lit "var", Rx.many1 (.cls jsWsChar), Rx.many1 (.cls wordChar)]

/-- Pattern `/console\.(log|debug|info)/i`. -/
def canFixConsolePat : Rx :=
  Rx.seq [Rx.lit "console.",
    .alt (Rx.lit "log") (.alt (Rx.lit "debug") (Rx.lit "info"))]

/-- Pattern `/trailing\s+whitespace/i`. -/
def canFixTrailingPat : Rx :=
  Rx.seq [Rx.lit "trailing", Rx.many1 (.cls jsWsChar), Rx.lit "whitespace"]

/-- Pattern `/use\s+const\/let/i`. -/
def canFixConstLetPat : Rx :=
  Rx.seq [Rx.lit "use", Rx.many1 (.cls jsWsChar), Rx.lit "const/let"]

/-- Pattern `/strict\s+equality/i`. -/
def canFixStrictPat : Rx :=
  Rx.seq [Rx.lit "strict", Rx.many1 (.cls jsWsChar), Rx.lit "equality"]

/-- Pattern `/missing\s+semicolon/i`. -/
def canFixSemicolonPat : Rx :=
  Rx.seq [Rx.lit "missing", Rx.many1 (.cls jsWsChar), Rx.lit "semicolon"]

/-- Function `canAutoFix` of `autofix.ts`: the lowercased problem text matches one
of the six safe categories.  (The patterns carry the `i` flag, which is
inert on the lowercased text.) -/
def canAutoFix (issue : ReviewIssue) : Bool :=
  let problem := issue.problem.toList.map Char.toLower
  rxSearch canFixVarPat problem || rxSearch canFixConsolePat problem ||
    rxSearch canFixTrailingPat problem || rxSearch canFixConstLetPat problem ||
    rxSearch canFixStrictPat problem || rxSearch canFixSemicolonPat problem

/-- JavaScript truthiness of an optional string field. -/
def truthyS : Option String → Bool
  | some s => s != ""
  | none => false

/-- JS `content.replace(snippet, fixedCode)` with a *string* pattern: replace
the first occurrence of `snippet`, if any.  (`$`-substitution in the
replacement is not modelled; no claim exercises this path's output.) -/
def replaceFirst (content snippet fixedCode : String) : String :=
  String.mk (replaceFirstL content.toList snippet.toList fixedCode.toList)
where
  replaceFirstL : List Char → List Char → List Char → List Char
    | [], _, _ => []
    | c :: cs, pat, rep =>
      if startsWithL (c :: cs) pat && pat ≠ [] then
        rep ++ (c :: cs).drop pat.length
      else c :: replaceFirstL cs pat rep

/-- Pattern `/var\s+/` (dispatch test of `applyIssueFix`). -/
def dispatchVarPat : Rx := Rx.seq [Rx.lit "var", Rx.many1 (.cls jsWsChar)]

/-- Pattern `/trailing\s+whitespace/`. -/
def dispatchTrailingPat : Rx := canFixTrailingPat

/-- Pattern `/strict\s+equality|==\s+to\s+===/`. -/
def dispatchStrictPat : Rx :=
  .alt canFixStrictPat
    (Rx.seq [Rx.lit "==", Rx.many1 (.cls jsWsChar), Rx.lit "to",
      Rx.many1 (.cls jsWsChar), Rx.lit "==="])

/-- The pattern-based dispatch tail of `applyIssueFix` (everything after
the exact snippet/fixedCode branch). -/
def applyPatternFix (content : String) (issue : ReviewIssue) : String :=
  let problem := issue.problem.toList.map Char.toLower
  if rxSearch dispatchVarPat problem then varToConst content
  else if rxSearch canFixConsolePat problem then removeConsole content
  else if rxSearch dispatchTrailingPat problem then trimWhitespace content
  else if rxSearch dispatchStrictPat problem then strictEquality content
  else content

/-- Function `applyIssueFix` of `autofix.ts`. -/
def applyIssueFix (content : String) (issue : ReviewIssue) : String :=
  if truthyS issue.fixedCode && truthyS issue.snippet then
    replaceFirst content (issue.snippet.getD "") (issue.fixedCode.getD "")
  else applyPatternFix content issue

/-- Function `groupByFile` of `autofix.ts`: group by `file`, preserving first-seen
key order and per-key issue order (JavaScript object insertion order;
integer-like keys, which JavaScript would reorder first, are not
modelled). -/
def groupByFile (issues : List ReviewIssue) : List (String × List ReviewIssue) :=
  issues.foldl (fun acc i => insertGroup acc i) []
where
  insertGroup : List (String × List ReviewIssue) → ReviewIssue →
      List (String × List ReviewIssue)
    | [], i => [(i.file, [i])]
    | (f, g) :: rest, i =>
      if f = i.file then (f, g ++ [i]) :: rest
      else (f, g) :: insertGroup rest i

/-- The filesystem: a map from path to the content of the readable files. -/
abbrev Fs : Type := String → Option String

/-- JS `fs.writeFileSync`. -/
def fsWrite (fs : Fs) (p content : String) : Fs :=
  fun q => if q = p then some content else fs q

/-- JS `path.join(process.cwd(), filePath)` (modelled as plain
separator-joining; no normalization of `.`/`..` segments, which no claim
exercises). -/
def joinPath (cwd p : String) : String := cwd ++ "/" ++ p

structure AutoFixOptions where
  dryRun : Bool := false
  backup : Bool := false

structure AutoFixResult where
  file : String
  fixesApplied : Nat
  issues : List ReviewIssue
deriving Repr

/-- The per-file fix loop of `applyAutoFixes`: fold `applyIssueFix` over
the retained issues, counting only the applications that changed the
content. -/
def applyFixCount (content0 : String) (fixable : List ReviewIssue) :
    String × Nat :=
  fixable.foldl
    (fun st issue =>
      let fixed := applyIssueFix st.1 issue
      if fixed ≠ st.1 then (fixed, st.2 + 1) else st)
    (content0, 0)

/-- The writes performed for one fixed file: the optional backup of the
original content (`fs.writeFileSync(backupPath, originalContent)`), then —
unless `dryRun` — the write of the new content to the file itself. -/
def afterWrites (cwd : String) (options : AutoFixOptions)
    (filePath originalContent newContent : String) (fs : Fs) : Fs :=
  let fs1 := if options.backup then
      fsWrite fs (joinPath cwd filePath ++ ".prefl-backup") originalContent
    else fs
  if !options.dryRun then fsWrite fs1 (joinPath cwd filePath) newContent
  else fs1

/-- The file loop of `applyAutoFixes` over the grouped issues, threading
the filesystem state.  The source's `existsSync` check followed by
`readFileSync` is the one lookup `fs (joinPath cwd filePath)` (a present
path always reads; an absent one prints a warning and continues —
modelling collapses them, and a present-but-unreadable file, on which the
source would raise, is not representable). -/
def applyAutoFixesGo (cwd : String) (options : AutoFixOptions) :
    List (String × List ReviewIssue) → Fs → List AutoFixResult × Fs
  | [], fs => ([], fs)
  | (filePath, group) :: rest, fs =>
    if (group.filter canAutoFix).isEmpty then
      applyAutoFixesGo cwd options rest fs
    else
      match fs (joinPath cwd filePath) with
      | none => applyAutoFixesGo cwd options rest fs
      | some originalContent =>
        if (applyFixCount originalContent (group.filter canAutoFix)).2 > 0 then
          (⟨filePath, (applyFixCount originalContent (group.filter canAutoFix)).2,
              group.filter canAutoFix⟩ ::
            (applyAutoFixesGo cwd options rest
              (afterWrites cwd options filePath originalContent
                (applyFixCount originalContent (group.filter canAutoFix)).1 fs)).1,
            (applyAutoFixesGo cwd options rest
              (afterWrites cwd options filePath originalContent
                (applyFixCount originalContent (group.filter canAutoFix)).1 fs)).2)
        else applyAutoFixesGo cwd options rest fs

/-- Function `applyAutoFixes` of `autofix.ts`, relative to working directory `cwd`
and filesystem `fs`. -/
def applyAutoFixes (cwd : String) (issues : List ReviewIssue)
    (options : AutoFixOptions) (fs : Fs) : List AutoFixResult × Fs :=
  applyAutoFixesGo cwd options (groupByFile issues) fs

/-! ## Context expansion (`contextResolver.ts`)

`expandContextByImports` is embedded parametrically in its three helpers —
`parse` (`parseRelativeImports`), `resolve` (`resolveImportPath`) and
`fsRead` (`fs.readFileSync`, the filesystem) — since every claim about it
quantifies over their behavior; the BFS bookkeeping (output list, seen-set,
FIFO queue, budget checks) is embedded exactly.

The inner `for` loop of the source pushes each newly resolved entry onto
both `out` and `queue`, marks it seen, and breaks early once
`out.length >= maxFiles`; `processImports` returns the list of entries
pushed by one run of that loop (appended to both `out` and `queue` by the
caller, which passes the current `out.length` for the budget check)
together with the updated seen-set. -/

def processImports (resolve : String → String → Option String)
    (fsRead : String → Option String) (maxFiles : Nat) (itemPath : String) :
    List String → Nat → List String → List ContextFile × List String
  | [], _, seen => ([], seen)
  | imp :: rest, outLen, seen =>
    match resolve itemPath imp with
    | none => processImports resolve fsRead maxFiles itemPath rest outLen seen
    | some resolved =>
      if resolved ∈ seen then
        processImports resolve fsRead maxFiles itemPath rest outLen seen
      else
        match fsRead resolved with
        | none => processImports resolve fsRead maxFiles itemPath rest outLen seen
        | some content =>
          let entry : ContextFile := ⟨resolved, content.take 20000⟩
          if outLen + 1 ≥ maxFiles then ([entry], resolved :: seen)
          else
            let r := processImports resolve fsRead maxFiles itemPath rest
              (outLen + 1) (resolved :: seen)
            (entry :: r.1, r.2)

/-- The `while` loop of `expandContextByImports`: loop while the queue is
non-empty and the output is below the budget; dequeue one item, resolve its
imports, append the new entries to both the output and the queue. -/
def expandLoop (parse : String → List String)
    (resolve : String → String → Option String)
    (fsRead : String → Option String) (maxFiles : Nat) :
    List ContextFile → List ContextFile → List String → List ContextFile
  | out, [], _ => out
  | out, item :: qrest, seen =>
    if out.length < maxFiles then
      let r := processImports resolve fsRead maxFiles item.path
        (parse item.content) out.length seen
      expandLoop parse resolve fsRead maxFiles (out ++ r.1) (qrest ++ r.1) r.2
    else out
termination_by out queue _ => queue.length + 2 * (maxFiles - out.length)
decreasing_by
  rename_i h
  have key : ∀ (imps : List String) (n : Nat) (s : List String),
      n < maxFiles →
      (processImports resolve fsRead maxFiles item.path imps n s).1.length + n ≤
        maxFiles := by
    intro imps
    induction imps with
    | nil => intro n s hn; simp [processImports]; omega
    | cons imp rest ih =>
      intro n s hn
      simp only [processImports]
      cases resolve item.path imp with
      | none => exact ih n s hn
      | some resolved =>
        by_cases hs : resolved ∈ s
        · simpa [hs] using ih n s hn
        · simp only [hs, if_false]
          cases fsRead resolved with
          | none => exact ih n s hn
          | some content =>
            by_cases hb : n + 1 ≥ maxFiles
            · simp [hb]; omega
            · have := ih (n + 1) (resolved :: s) (by omega)
              simp only [hb, if_false]
              simp only [List.length_cons]
              omega
  have hk := key (parse item.content) out.length seen h
  simp only [List.length_append, List.length_cons]
  omega

/-- Function `expandContextByImports(seed, maxFiles)` of `contextResolver.ts`:
output, seen-set and queue all start from `seed`. -/
def expandContextByImports (parse : String → List String)
    (resolve : String → String → Option String)
    (fsRead : String → Option String)
    (seed : List ContextFile) (maxFiles : Nat) : List ContextFile :=
  expandLoop parse resolve fsRead maxFiles seed seed (seed.map (fun s => s.path))

/-! ## Specification-side definitions for the extraction claim

Two definitions written from the specification's words, for comparison with
`safeParseIssues` (the definition from the source): the specification
describes the fallback extraction as taking "the first balanced bracketed
JSON array found in the free-text response", while the source's regular
expression `/\[([\s\S]*?)\]/` is a lazy (first-`]`) slice. -/

/-- Scan after an opening `[` with `d` currently unclosed brackets,
returning the characters through the bracket that closes the first one
(`none` if the brackets never balance). -/
def balancedTail : Nat → List Char → Option (List Char)
  | _, [] => none
  | d, c :: rest =>
    if c = ']' then
      if d = 1 then some [']']
      else (balancedTail (d - 1) rest).map (fun l => ']' :: l)
    else if c = '[' then (balancedTail (d + 1) rest).map (fun l => '[' :: l)
    else (balancedTail d rest).map (fun l => c :: l)

/-- The first balanced bracketed chunk `[ … ]` of the text (the earliest
`[` from which bracket counting returns to zero), as the specification
describes the extraction. -/
def firstBalancedArray : List Char → Option (List Char)
  | [] => none
  | c :: rest =>
    if c = '[' then
      match balancedTail 1 rest with
      | some inner => some ('[' :: inner)
      | none => firstBalancedArray rest
    else firstBalancedArray rest

/-- The extraction pipeline exactly as the specification claims it: the
direct-parse attempt, else the same attempt on the first *balanced*
bracketed array, else `[]`. -/
def safeParseIssuesSpec (text : String) : List ReviewIssue :=
  match tryParseIssues text with
  | some issues => issues
  | none =>
    match firstBalancedArray text.toList with
    | some slice =>
      match tryParseIssues (String.mk slice) with
      | some issues => issues
      | none => []
    | none => []

/-- The amended description of the slice: the substring from the first `[`
through the first `]` that follows it (stated by indices, independently of
the scan in `lazyBracketSlice`). -/
def lazySliceByIdx (cs : List Char) : Option (List Char) :=
  match cs.findIdx? (fun c => c = '[') with
  | none => none
  | some i =>
    match (cs.drop i).findIdx? (fun c => c = ']') with
    | none => none
    | some j => some ((cs.drop i).take (j + 1))

/-- The extraction pipeline as amended: the direct-parse attempt (which
falls through on parse failure, a non-array value, or a normalization
throw), else the same attempt on the lazy first-`[`-to-first-`]` slice,
else `[]`. -/
def safeParseIssuesLazy (text : String) : List ReviewIssue :=
  match tryParseIssues text with
  | some issues => issues
  | none =>
    match lazySliceByIdx text.toList with
    | some slice =>
      match tryParseIssues (String.mk slice) with
      | some issues => issues
      | none => []
    | none => []

/-! ## Concrete data used by witnesses and counterexamples -/

/-- A minimal well-formed remote-response text: one issue, string fields. -/
def c9text : String := "[\x7b\"file\":\"a\",\"problem\":\"p\",\"fix\":\"f\"\x7d]"

/-- The issue `safeParseIssues` extracts from `c9text`. -/
def c9issue : ReviewIssue :=
  { file := "a", problem := "p", fix := "f",
    severity := some (.str "warning") }

/-- A remote-response text whose first JSON array contains a nested array:
free text around `[{"file":["a"],"problem":"p","fix":"f"}]`. -/
def c8text : String :=
  "oops [\x7b\"file\":[\"a\"],\"problem\":\"p\",\"fix\":\"f\"\x7d] end"

/-- The trailing-whitespace issue used by the C10 scenarios. -/
def twIssue : ReviewIssue :=
  { file := "a.txt", problem := "trailing whitespace", fix := "strip it" }

/-- A one-file filesystem for the C10 witness (`cwd` is `""`). -/
def twFs : Fs := fun p => if p = "/a.txt" then some "x \n" else none

/-- C10 collision scenario: a target whose path is another target's path
plus the backup suffix. -/
def cexIssueA : ReviewIssue :=
  { file := "a", problem := "trailing whitespace", fix := "strip it" }

def cexIssueB : ReviewIssue :=
  { file := "a.prefl-backup", problem := "trailing whitespace",
    fix := "strip it" }

def cexFs : Fs := fun p =>
  if p = "/a" then some "x \n"
  else if p = "/a.prefl-backup" then some "y \n"
  else none

/-! ## Theorems: idempotence of the safe transforms (claim C4) -/

theorem dropTrailingWs_idem (l : List Char) :
    dropTrailingWs (dropTrailingWs l) = dropTrailingWs l := by
  unfold dropTrailingWs
  rw [List.reverse_reverse, List.dropWhile_idempotent]

theorem nl_not_mem_dropTrailingWs (l : List Char) (h : '\n' ∉ l) :
    '\n' ∉ dropTrailingWs l := by
  intro hm
  exact h (List.mem_reverse.mp
    ((List.dropWhile_sublist _).subset (List.mem_reverse.mp hm)))

theorem splitNl_ne_nil (l : List Char) : splitNl l ≠ [] := by
  cases l with
  | nil => simp [splitNl]
  | cons c rest =>
    unfold splitNl
    split
    · simp
    · split <;> simp

theorem nl_not_mem_splitNl (l : List Char) : ∀ p ∈ splitNl l, '\n' ∉ p := by
  induction l with
  | nil => intro p hp; simp [splitNl] at hp; simp [hp]
  | cons c rest ih =>
    intro p hp
    by_cases hc : c = '\n'
    · simp only [splitNl, hc, if_pos rfl] at hp
      rcases List.mem_cons.mp hp with h | h
      · simp [h]
      · exact ih p h
    · cases hsp : splitNl rest with
      | nil => exact absurd hsp (splitNl_ne_nil rest)
      | cons q qs =>
        simp only [splitNl, hc, if_false, hsp] at hp
        rcases List.mem_cons.mp hp with h | h
        · subst h
          intro hmem
          rcases List.mem_cons.mp hmem with h | h
          · exact hc h.symm
          · exact ih q (hsp ▸ List.mem_cons_self q qs) h
        · exact ih p (hsp ▸ List.mem_cons_of_mem q h)

theorem splitNl_single (p : List Char) (h : '\n' ∉ p) : splitNl p = [p] := by
  induction p with
  | nil => simp [splitNl]
  | cons c rest ih =>
    have hc : ¬ c = '\n' := fun hh => h (hh ▸ List.mem_cons_self c rest)
    have hr : splitNl rest = [rest] := ih (fun hm => h (List.mem_cons_of_mem c hm))
    simp [splitNl, hc, hr]

theorem splitNl_append_nl (p t : List Char) (h : '\n' ∉ p) :
    splitNl (p ++ '\n' :: t) = p :: splitNl t := by
  induction p with
  | nil => simp [splitNl]
  | cons c rest ih =>
    have hc : ¬ c = '\n' := fun hh => h (hh ▸ List.mem_cons_self c rest)
    have hr := ih (fun hm => h (List.mem_cons_of_mem c hm))
    show splitNl (c :: (rest ++ '\n' :: t)) = (c :: rest) :: splitNl t
    have hstep : splitNl (c :: (rest ++ '\n' :: t)) =
        match splitNl (rest ++ '\n' :: t) with
        | p :: ps => (c :: p) :: ps
        | [] => [[c]] := by
      conv_lhs => unfold splitNl
      simp [hc]
    rw [hstep, hr]

theorem splitNl_joinNl (ls : List (List Char)) (h : ∀ p ∈ ls, '\n' ∉ p)
    (hne : ls ≠ []) : splitNl (joinNl ls) = ls := by
  induction ls with
  | nil => exact absurd rfl hne
  | cons p ps ih =>
    cases ps with
    | nil => exact splitNl_single p (h p (List.mem_cons_self p []))
    | cons q qs =>
      have hp : '\n' ∉ p := h p (List.mem_cons_self p _)
      have hrest : ∀ r ∈ q :: qs, '\n' ∉ r :=
        fun r hr => h r (List.mem_cons_of_mem p hr)
      show splitNl (p ++ '\n' :: joinNl (q :: qs)) = p :: (q :: qs)
      rw [splitNl_append_nl p _ hp, ih hrest (by simp)]

theorem trimWhitespace_idem (code : String) :
    trimWhitespace (trimWhitespace code) = trimWhitespace code := by
  unfold trimWhitespace
  have htl : ∀ l : List Char, (String.mk l).toList = l := fun _ => rfl
  rw [htl]
  rw [splitNl_joinNl ((splitNl code.toList).map dropTrailingWs)
    (by
      intro p hp
      rcases List.mem_map.mp hp with ⟨q, hq, rfl⟩
      exact nl_not_mem_dropTrailingWs q (nl_not_mem_splitNl _ q hq))
    (by
      intro hh
      exact splitNl_ne_nil code.toList (List.map_eq_nil_iff.mp hh))]
  have hmap : List.map (dropTrailingWs ∘ dropTrailingWs) (splitNl code.toList) =
      List.map dropTrailingWs (splitNl code.toList) :=
    List.map_congr_left (fun p _ => dropTrailingWs_idem p)
  rw [List.map_map, hmap]

/-! ## Context expansion: budget, seed containment, duplicates (C1, C5) -/

theorem processImports_length (resolve : String → String → Option String)
    (fsRead : String → Option String) (maxFiles : Nat) (p : String) :
    ∀ (imps : List String) (n : Nat) (s : List String), n < maxFiles →
      (processImports resolve fsRead maxFiles p imps n s).1.length + n ≤
        maxFiles := by
  intro imps
  induction imps with
  | nil => intro n s hn; simp [processImports]; omega
  | cons imp rest ih =>
    intro n s hn
    simp only [processImports]
    cases resolve p imp with
    | none => exact ih n s hn
    | some resolved =>
      by_cases hs : resolved ∈ s
      · simpa [hs] using ih n s hn
      · simp only [hs, if_false]
        cases fsRead resolved with
        | none => exact ih n s hn
        | some content =>
          by_cases hb : n + 1 ≥ maxFiles
          · simp [hb]; omega
          · have := ih (n + 1) (resolved :: s) (by omega)
            simp only [hb, if_false, List.length_cons]
            omega

theorem processImports_seen (resolve : String → String → Option String)
    (fsRead : String → Option String) (maxFiles : Nat) (p : String) :
    ∀ (imps : List String) (n : Nat) (s : List String),
      (∀ e ∈ (processImports resolve fsRead maxFiles p imps n s).1, e.path ∉ s) ∧
      (((processImports resolve fsRead maxFiles p imps n s).1.map
        (fun e => e.path)).Nodup) ∧
      (∀ q, q ∈ (processImports resolve fsRead maxFiles p imps n s).2 ↔
        q ∈ (processImports resolve fsRead maxFiles p imps n s).1.map
          (fun e => e.path) ∨ q ∈ s) := by
  intro imps
  induction imps with
  | nil => intro n s; simp [processImports]
  | cons imp rest ih =>
    intro n s
    simp only [processImports]
    cases resolve p imp with
    | none => exact ih n s
    | some resolved =>
      by_cases hs : resolved ∈ s
      · simpa [hs] using ih n s
      · simp only [hs, if_false]
        cases fsRead resolved with
        | none => exact ih n s
        | some content =>
          by_cases hb : n + 1 ≥ maxFiles
          · simp only [hb, if_pos]
            refine ⟨?_, ?_, ?_⟩
            · intro e he
              simp only [List.mem_singleton] at he
              simp [he, hs]
            · simp
            · intro q; simp [List.mem_cons]
          · obtain ⟨ihFresh, ihNodup, ihSeen⟩ := ih (n + 1) (resolved :: s)
            simp only [hb, if_false]
            refine ⟨?_, ?_, ?_⟩
            · intro e he
              rcases List.mem_cons.mp he with h | h
              · simp [h, hs]
              · intro hmem
                exact ihFresh e h (List.mem_cons_of_mem resolved hmem)
            · simp only [List.map_cons, List.nodup_cons]
              refine ⟨?_, ihNodup⟩
              intro hmem
              rcases List.mem_map.mp hmem with ⟨e, he, hep⟩
              exact ihFresh e he (hep ▸ List.mem_cons_self resolved s)
            · intro q
              rw [ihSeen q]
              simp only [List.map_cons, List.mem_cons]
              tauto

theorem expandLoop_nil (parse : String → List String)
    (resolve : String → String → Option String)
    (fsRead : String → Option String) (maxFiles : Nat)
    (out : List ContextFile) (seen : List String) :
    expandLoop parse resolve fsRead maxFiles out [] seen = out := by
  rw [expandLoop]

theorem expandLoop_cons (parse : String → List String)
    (resolve : String → String → Option String)
    (fsRead : String → Option String) (maxFiles : Nat)
    (out : List ContextFile) (item : ContextFile) (qrest : List ContextFile)
    (seen : List String) (h : out.length < maxFiles) :
    expandLoop parse resolve fsRead maxFiles out (item :: qrest) seen =
      expandLoop parse resolve fsRead maxFiles
        (out ++ (processImports resolve fsRead maxFiles item.path
          (parse item.content) out.length seen).1)
        (qrest ++ (processImports resolve fsRead maxFiles item.path
          (parse item.content) out.length seen).1)
        (processImports resolve fsRead maxFiles item.path
          (parse item.content) out.length seen).2 := by
  rw [expandLoop]
  simp [h]

theorem expandLoop_stop (parse : String → List String)
    (resolve : String → String → Option String)
    (fsRead : String → Option String) (maxFiles : Nat)
    (out : List ContextFile) (item : ContextFile) (qrest : List ContextFile)
    (seen : List String) (h : ¬ out.length < maxFiles) :
    expandLoop parse resolve fsRead maxFiles out (item :: qrest) seen = out := by
  rw [expandLoop]
  simp [h]

theorem expandLoop_extends (parse : String → List String)
    (resolve : String → String → Option String)
    (fsRead : String → Option String) (maxFiles : Nat)
    (out queue : List ContextFile) (seen : List String) :
    ∃ added, expandLoop parse resolve fsRead maxFiles out queue seen =
      out ++ added := by
  induction out, queue, seen using expandLoop.induct parse resolve fsRead maxFiles with
  | case1 out seen => exact ⟨[], by rw [expandLoop_nil, List.append_nil]⟩
  | case2 out item qrest seen h r ih =>
    obtain ⟨added, ha⟩ := ih
    refine ⟨r.1 ++ added, ?_⟩
    rw [expandLoop_cons parse resolve fsRead maxFiles out item qrest seen h,
      ← List.append_assoc]
    exact ha
  | case3 out item qrest seen h =>
    exact ⟨[], by rw [expandLoop_stop parse resolve fsRead maxFiles out item qrest seen h,
      List.append_nil]⟩

theorem expandLoop_length_le (parse : String → List String)
    (resolve : String → String → Option String)
    (fsRead : String → Option String) (maxFiles : Nat)
    (out queue : List ContextFile) (seen : List String)
    (hout : out.length ≤ maxFiles) :
    (expandLoop parse resolve fsRead maxFiles out queue seen).length ≤
      maxFiles := by
  induction out, queue, seen using expandLoop.induct parse resolve fsRead maxFiles with
  | case1 out seen => rw [expandLoop_nil]; exact hout
  | case2 out item qrest seen h r ih =>
    rw [expandLoop_cons parse resolve fsRead maxFiles out item qrest seen h]
    refine ih ?_
    have hr : r.1.length + out.length ≤ maxFiles :=
      processImports_length resolve fsRead maxFiles item.path
        (parse item.content) out.length seen h
    simp only [List.length_append]
    omega
  | case3 out item qrest seen h =>
    rw [expandLoop_stop parse resolve fsRead maxFiles out item qrest seen h]
    exact hout

theorem expandLoop_nodup (parse : String → List String)
    (resolve : String → String → Option String)
    (fsRead : String → Option String) (maxFiles : Nat)
    (out queue : List ContextFile) (seen : List String)
    (hout : (out.map (fun f => f.path)).Nodup)
    (hseen : ∀ q, q ∈ seen ↔ q ∈ out.map (fun f => f.path)) :
    ((expandLoop parse resolve fsRead maxFiles out queue seen).map
      (fun f => f.path)).Nodup := by
  induction out, queue, seen using expandLoop.induct parse resolve fsRead maxFiles with
  | case1 out seen => rw [expandLoop_nil]; exact hout
  | case2 out item qrest seen h r ih =>
    rw [expandLoop_cons parse resolve fsRead maxFiles out item qrest seen h]
    have hspec := processImports_seen resolve fsRead maxFiles
      item.path (parse item.content) out.length seen
    have hFresh : ∀ e ∈ r.1, e.path ∉ seen := hspec.1
    have hNodup : (r.1.map (fun e => e.path)).Nodup := hspec.2.1
    have hSeen : ∀ q, q ∈ r.2 ↔ q ∈ r.1.map (fun e => e.path) ∨ q ∈ seen :=
      hspec.2.2
    refine ih ?_ ?_
    · simp only [List.map_append]
      rw [List.nodup_append]
      refine ⟨hout, hNodup, ?_⟩
      intro a ha hb
      rcases List.mem_map.mp hb with ⟨e, he, hep⟩
      exact hFresh e he (hep ▸ (hseen a).mpr ha)
    · intro q
      rw [hSeen q, hseen q]
      simp [List.mem_append, or_comm]
  | case3 out item qrest seen h =>
    rw [expandLoop_stop parse resolve fsRead maxFiles out item qrest seen h]
    exact hout

/-- Claim C1, as stated, is false: with a seed of one (readable) entry and
`maxFiles = 0` the function returns the seed, exceeding the budget. -/
theorem expandContextByImports_budget_counterexample :
    ¬ ((expandContextByImports (fun _ => []) (fun _ _ => none) (fun _ => none)
      [⟨"a.ts", ""⟩] 0).length ≤ 0) := by
  rw [expandContextByImports, expandLoop_stop _ _ _ _ _ _ _ _ (by simp)]
  simp

/-- C1 (amended): the output of `expandContextByImports` always begins with
the seed (hence contains every seed entry), and — provided the seed itself
is within the budget — has at most `maxFiles` entries.  (With more than
`maxFiles` seed entries the loop body never runs and the seed is returned
unchanged, exceeding the budget.) -/
theorem expandContextByImports_budget (parse : String → List String)
    (resolve : String → String → Option String)
    (fsRead : String → Option String)
    (seed : List ContextFile) (maxFiles : Nat) :
    (expandContextByImports parse resolve fsRead seed maxFiles).take seed.length =
      seed ∧
    (seed.length ≤ maxFiles →
      (expandContextByImports parse resolve fsRead seed maxFiles).length ≤
        maxFiles) := by
  constructor
  · obtain ⟨added, ha⟩ := expandLoop_extends parse resolve fsRead maxFiles seed
      seed (seed.map (fun s => s.path))
    rw [expandContextByImports, ha, List.take_left]
  · intro h
    exact expandLoop_length_le parse resolve fsRead maxFiles seed seed
      (seed.map (fun s => s.path)) h

theorem expandContextByImports_budget_witness :
    (([⟨"a.ts", "b"⟩] : List ContextFile).length ≤ 5) ∧
    (expandContextByImports (fun _ => ["./b"])
      (fun _ imp => if imp = "./b" then some "b.ts" else none)
      (fun q => if q = "b.ts" then some "x" else none)
      [⟨"a.ts", "b"⟩] 5).take 1 = [⟨"a.ts", "b"⟩] ∧
    (expandContextByImports (fun _ => ["./b"])
      (fun _ imp => if imp = "./b" then some "b.ts" else none)
      (fun q => if q = "b.ts" then some "x" else none)
      [⟨"a.ts", "b"⟩] 5).length ≤ 5 :=
  ⟨by decide,
    (expandContextByImports_budget (fun _ => ["./b"])
      (fun _ imp => if imp = "./b" then some "b.ts" else none)
      (fun q => if q = "b.ts" then some "x" else none)
      [⟨"a.ts", "b"⟩] 5).1,
    (expandContextByImports_budget (fun _ => ["./b"])
      (fun _ imp => if imp = "./b" then some "b.ts" else none)
      (fun q => if q = "b.ts" then some "x" else none)
      [⟨"a.ts", "b"⟩] 5).2 (by decide)⟩

/-- Claim C5, as stated, is false: a seed already containing two entries
with the same path is copied to the output untouched. -/
theorem expandContextByImports_nodup_counterexample :
    ¬ (((expandContextByImports (fun _ => []) (fun _ _ => none) (fun _ => none)
      [⟨"a.ts", "x"⟩, ⟨"a.ts", "y"⟩] 1).map (fun f => f.path)).Nodup) := by
  rw [expandContextByImports, expandLoop_stop _ _ _ _ _ _ _ _ (by simp)]
  simp

/-- C5 (amended): provided the seed's paths are pairwise distinct, the
output of context expansion never contains two entries with equal path. -/
theorem expandContextByImports_nodup (parse : String → List String)
    (resolve : String → String → Option String)
    (fsRead : String → Option String)
    (seed : List ContextFile) (maxFiles : Nat)
    (h : (seed.map (fun f => f.path)).Nodup) :
    ((expandContextByImports parse resolve fsRead seed maxFiles).map
      (fun f => f.path)).Nodup := by
  rw [expandContextByImports]
  exact expandLoop_nodup parse resolve fsRead maxFiles seed seed
    (seed.map (fun s => s.path)) h (fun _ => Iff.rfl)

theorem expandContextByImports_nodup_witness :
    (([⟨"a.ts", "x"⟩, ⟨"b.ts", "y"⟩] : List ContextFile).map
      (fun f => f.path)).Nodup ∧
    ((expandContextByImports (fun _ => ["./c"])
      (fun _ imp => if imp = "./c" then some "c.ts" else none)
      (fun q => if q = "c.ts" then some "z" else none)
      [⟨"a.ts", "x"⟩, ⟨"b.ts", "y"⟩] 9).map (fun f => f.path)).Nodup :=
  ⟨by decide,
    expandContextByImports_nodup (fun _ => ["./c"])
      (fun _ imp => if imp = "./c" then some "c.ts" else none)
      (fun q => if q = "c.ts" then some "z" else none)
      [⟨"a.ts", "x"⟩, ⟨"b.ts", "y"⟩] 9 (by decide)⟩

/-! ## Diff line attribution (C2) and the missing-alt rule (C7) -/

/-- Claim C2: for the synthetic diff with hunk header `@@ -1,3 +10,3 @@`
and three added lines, the scanner attributes lines 11, 12, 13 — not
10, 11, 12 as the specification requires.  The hunk header sets the counter
to the parsed start 10, but the added-line branch increments the counter
*before* using it, so every added line is attributed one line late. -/
theorem heuristicScan_hunk_line_attribution :
    ((heuristicScan
      "diff --git a/f.ts b/f.ts\n--- a/f.ts\n+++ b/f.ts\n@@ -1,3 +10,3 @@\n+eval(a)\n+eval(b)\n+eval(c)"
      []).map (fun i => i.line) = [some 11, some 12, some 13]) ∧
    ([some 11, some 12, some 13] ≠ ([some 10, some 11, some 12] : List (Option Nat))) :=
  ⟨by rfl, by decide⟩

/-- Claim C7: the accessibility rule does not fire exactly on `<img>` tags
lacking `alt`.  On a diff adding `<img>` (which lacks `alt`) and
`<img src="a.png" alt="photo">` (which has `alt`), the scanner flags only
the second: the broken lookahead `/<img[^>]+(?!alt=)/` matches any `<img`
followed by at least one non-`>` character, and never matches bare
`<img>`. -/
theorem heuristicScan_missingAlt_misfires :
    heuristicScan "+++ b/x.html\n+<img>\n+<img src=\"a.png\" alt=\"photo\">" [] =
      [{ file := "x.html", problem := "Accessibility: Missing alt attribute",
         fix := "Add alt text for screen readers",
         severity := some (.str "warning"), line := some 2,
         snippet := some "<img src=\"a.png\" alt=\"photo\">" }] := by rfl

/-! ## The hardcoded-secret rule (C6) -/

theorem filter_ite_singleton (p : ReviewIssue → Bool) (c : Bool)
    (x : ReviewIssue) :
    List.filter p (if c then [x] else []) = if c && p x then [x] else [] := by
  by_cases h : c <;> simp [h, List.filter_singleton]

/-- Claim C6, as stated, is false: the added line `key = "abc123"` assigns
`key` to a quoted literal, yet the scanner emits nothing — the pattern only
accepts `api[_-]?key`, not a bare `key`. -/
theorem heuristicScan_hardcodedSecret_counterexample :
    heuristicScan "+++ b/x.ts\n+key = \"abc123\"" [] = [] := by rfl

/-- C6 (amended): an added line containing one of the (case-sensitive)
substrings `password`/`secret`/`key`/`token` and matching the
case-insensitive pattern — `password`, `secret`, `token`, or an
`api`-prefixed key (`api_key`/`api-key`/`apikey`), assigned `=` a quoted
non-empty literal — receives exactly one hardcoded-secret issue, with
severity critical. -/
theorem scanAddedLine_hardcodedSecret (file : String) (n : Nat)
    (added : List Char)
    (hguard : (includesL added "password".toList ||
      includesL added "secret".toList || includesL added "key".toList ||
      includesL added "token".toList) = true)
    (hmatch : rxSearch hardcodedSecretPat (added.map Char.toLower) = true) :
    (scanAddedLine file n added).filter
      (fun i => i.problem == "Security: Hardcoded secret detected") =
      [{ file := file, problem := "Security: Hardcoded secret detected",
         fix := "Move to environment variables (.env)",
         severity := some (.str "critical"), line := some n,
         snippet := some (String.mk (trimL added)) }] := by
  unfold scanAddedLine
  simp only [List.filter_append, filter_ite_singleton, hguard, hmatch]
  simp

theorem scanAddedLine_hardcodedSecret_witness :
    ((includesL "password = \"hunter2\"".toList "password".toList ||
      includesL "password = \"hunter2\"".toList "secret".toList ||
      includesL "password = \"hunter2\"".toList "key".toList ||
      includesL "password = \"hunter2\"".toList "token".toList) = true) ∧
    (rxSearch hardcodedSecretPat
      ("password = \"hunter2\"".toList.map Char.toLower) = true) ∧
    (scanAddedLine "x.ts" 3 "password = \"hunter2\"".toList).filter
      (fun i => i.problem == "Security: Hardcoded secret detected") =
      [{ file := "x.ts", problem := "Security: Hardcoded secret detected",
         fix := "Move to environment variables (.env)",
         severity := some (.str "critical"), line := some 3,
         snippet := some (String.mk (trimL "password = \"hunter2\"".toList)) }] :=
  ⟨by decide, by decide,
    scanAddedLine_hardcodedSecret "x.ts" 3 "password = \"hunter2\"".toList
      (by decide) (by decide)⟩

/-! ## Fallback to the heuristic scanner (C3) -/

/-- C3: with the API key present, whenever the remote call throws, returns
a non-OK response, or returns a content whose best-effort extraction yields
zero issues, `analyzeWithGroq` returns exactly the heuristic scan of the
diff and propagates no error. -/
theorem analyzeWithGroq_fallback (key diff : String) (ctx : List ContextFile)
    (outcome : RemoteOutcome)
    (h : (∃ m, outcome = .thrown m) ∨ (∃ s b, outcome = .httpError s b) ∨
      (∃ c, outcome = .ok c ∧ safeParseIssues c = [])) :
    analyzeWithGroq (some key) outcome diff ctx =
      .ok (heuristicScan diff ctx) := by
  rcases h with ⟨m, rfl⟩ | ⟨s, b, rfl⟩ | ⟨c, rfl, hc⟩
  · rfl
  · rfl
  · simp [analyzeWithGroq, hc]

theorem analyzeWithGroq_fallback_witness :
    analyzeWithGroq (some "gsk_test") (.thrown "fetch failed")
      "+++ b/a.ts\n+eval(x)" [] =
      .ok (heuristicScan "+++ b/a.ts\n+eval(x)" []) :=
  analyzeWithGroq_fallback "gsk_test" "+++ b/a.ts\n+eval(x)" []
    (.thrown "fetch failed") (Or.inl ⟨"fetch failed", rfl⟩)

/-! ## Best-effort extraction (C8) -/

theorem takeThroughRBracket_eq_idx (l : List Char) :
    takeThroughRBracket l =
      (l.findIdx? (fun c => c = ']')).map (fun j => l.take (j + 1)) := by
  induction l with
  | nil => rfl
  | cons c rest ih =>
    by_cases hc : c = ']'
    · subst hc
      simp [takeThroughRBracket, List.findIdx?_cons]
    · simp only [takeThroughRBracket, hc, if_false, ih, List.findIdx?_cons,
        decide_eq_true_eq, decide_eq_false hc]
      cases hfi : rest.findIdx? (fun x => decide (x = ']')) with
      | none => simp [hfi]
      | some j => simp [hfi, List.take_succ_cons]

theorem lazyBracketSlice_eq_idx (cs : List Char) :
    lazyBracketSlice cs = lazySliceByIdx cs := by
  induction cs with
  | nil => rfl
  | cons c rest ih =>
    by_cases hc : c = '['
    · subst hc
      unfold lazyBracketSlice lazySliceByIdx
      rw [takeThroughRBracket_eq_idx]
      simp only [if_pos rfl, List.findIdx?_cons, decide_eq_true_eq, if_pos rfl]
      cases hfi : rest.findIdx? (fun x => decide (x = ']')) with
      | none => simp [hfi]
      | some j => simp [hfi, List.take_succ_cons]
    · unfold lazyBracketSlice lazySliceByIdx
      simp only [hc, if_false, decide_eq_false hc, List.findIdx?_cons]
      rw [ih]
      unfold lazySliceByIdx
      cases hfi : rest.findIdx? (fun x => decide (x = '[')) with
      | none => simp [hfi]
      | some i => simp [hfi, List.drop_succ_cons]

/-- C8 (amended): extraction attempts a direct parse; if that does not
yield a JSON array it parses the substring from the first `[` through the
first `]` that follows it (a lazy, non-balanced slice); if that also fails
it returns the empty issue list. -/
theorem safeParseIssues_eq_lazy (text : String) :
    safeParseIssues text = safeParseIssuesLazy text := by
  simp only [safeParseIssues, safeParseIssuesLazy, lazyBracketSlice_eq_idx]

/-- Claim C8, as stated, is false: on a response whose first JSON array
contains a nested array, balanced extraction (the claim) recovers one
issue, but the source's lazy slice stops at the first `]` and recovers
nothing. -/
theorem safeParseIssues_balanced_counterexample :
    safeParseIssues c8text = [] ∧
    safeParseIssuesSpec c8text = [c9issue] ∧
    ([] : List ReviewIssue) ≠ [c9issue] :=
  ⟨by rfl, by rfl, by simp⟩

/-- On the array mixing a `null` element with a valid issue, the property
access throws in both `try` blocks (the lazy slice is the whole text), so
the source returns `[]` — as does the embedding. -/
theorem safeParseIssues_null_element :
    safeParseIssues
      "[null,\x7b\"file\":\"a\",\"problem\":\"p\",\"fix\":\"f\"\x7d]" = [] := by
  rfl

/-! ## Normalized issues carry no line/snippet/fixedCode (C9) -/

theorem normalizeIssue_fields (it : Json) (r : ReviewIssue)
    (h : normalizeIssue it = some r) :
    r.line = none ∧ r.snippet = none ∧ r.fixedCode = none := by
  unfold normalizeIssue at h
  split at h
  · cases h
  · cases Option.some.inj h
    exact ⟨rfl, rfl, rfl⟩

theorem normalizeMapped_fields (arr : List Json) (l : List ReviewIssue)
    (h : normalizeMapped arr = some l) :
    ∀ r ∈ l, r.line = none ∧ r.snippet = none ∧ r.fixedCode = none := by
  induction arr generalizing l with
  | nil =>
    cases Option.some.inj h
    intro r hr
    cases hr
  | cons it rest ih =>
    unfold normalizeMapped at h
    cases hni : normalizeIssue it with
    | none => rw [hni] at h; cases h
    | some r0 =>
      cases hnr : normalizeMapped rest with
      | none => rw [hni, hnr] at h; cases h
      | some rs =>
        rw [hni, hnr] at h
        cases Option.some.inj h
        intro r hr
        rcases List.mem_cons.mp hr with hh | hh
        · exact hh ▸ normalizeIssue_fields it r0 hni
        · exact ih rs hnr r hh

theorem normalizeIssues_fields (arr : List Json) (issues : List ReviewIssue)
    (issue : ReviewIssue) (h : normalizeIssues arr = some issues)
    (hm : issue ∈ issues) :
    issue.line = none ∧ issue.snippet = none ∧ issue.fixedCode = none := by
  unfold normalizeIssues at h
  cases hmap : normalizeMapped arr with
  | none => rw [hmap] at h; cases h
  | some l =>
    rw [hmap] at h
    cases Option.some.inj h
    exact normalizeMapped_fields arr l hmap issue (List.mem_of_mem_filter hm)

theorem tryParseIssues_fields (s : String) (issues : List ReviewIssue)
    (issue : ReviewIssue) (h : tryParseIssues s = some issues)
    (hm : issue ∈ issues) :
    issue.line = none ∧ issue.snippet = none ∧ issue.fixedCode = none := by
  unfold tryParseIssues at h
  split at h
  · exact normalizeIssues_fields _ _ _ h hm
  · cases h

/-- C9: every issue obtained by parsing a remote-analyzer response is
normalized to file/problem/fix/severity only — its `line`, `snippet` and
`fixedCode` fields are absent — and therefore `applyIssueFix` on such an
issue never takes the exact snippet/fixedCode replacement path: it always
reduces to the pattern-based dispatch. -/
theorem safeParseIssues_no_snippet_path (text : String) (issue : ReviewIssue)
    (h : issue ∈ safeParseIssues text) :
    issue.line = none ∧ issue.snippet = none ∧ issue.fixedCode = none ∧
    ∀ content, applyIssueFix content issue = applyPatternFix content issue := by
  have hf : issue.line = none ∧ issue.snippet = none ∧
      issue.fixedCode = none := by
    unfold safeParseIssues at h
    split at h
    · next issues heq => exact tryParseIssues_fields text issues issue heq h
    · split at h
      · split at h
        · next issues2 heq2 =>
            exact tryParseIssues_fields _ issues2 issue heq2 h
        · exact absurd h (List.not_mem_nil _)
      · exact absurd h (List.not_mem_nil _)
  refine ⟨hf.1, hf.2.1, hf.2.2, fun content => ?_⟩
  unfold applyIssueFix
  rw [hf.2.2]
  simp [truthyS]

theorem safeParseIssues_no_snippet_path_witness :
    c9issue ∈ safeParseIssues c9text ∧
    applyIssueFix "x == y" c9issue = applyPatternFix "x == y" c9issue := by
  have heval : safeParseIssues c9text = [c9issue] := rfl
  have hm : c9issue ∈ safeParseIssues c9text := by
    rw [heval]
    exact List.mem_singleton_self _
  exact ⟨hm, (safeParseIssues_no_snippet_path c9text c9issue hm).2.2.2 "x == y"⟩

/-- The scan fuel of `rcGo` is irrelevant as soon as it covers the input
length: every step consumes at least one character, so `removeConsole`'s
fuel `code.length` never runs out. -/
theorem rcGo_fuel_irrelevant :
    ∀ (f1 : Nat) (l : List Char) (f2 : Nat), l.length ≤ f1 → l.length ≤ f2 →
      rcGo f1 l = rcGo f2 l := by
  intro f1
  induction f1 with
  | zero =>
    intro l f2 h1 _
    rw [List.length_eq_zero.mp (Nat.le_zero.mp h1)]
    cases f2 <;> rfl
  | succ g1 ih =>
    intro l f2 h1 h2
    cases l with
    | nil => cases f2 <;> rfl
    | cons c cs =>
      cases f2 with
      | zero => exact absurd h2 (by simp)
      | succ g2 =>
        simp only [rcGo]
        cases consoleCallLen (c :: cs) with
        | some n =>
          have hd : (cs.drop (n - 1)).length ≤ cs.length := by
            rw [List.length_drop]
            omega
          have hl : cs.length ≤ g1 := by simpa using h1
          have hl2 : cs.length ≤ g2 := by simpa using h2
          exact ih (cs.drop (n - 1)) g2 (le_trans hd hl) (le_trans hd hl2)
        | none =>
          have hl : cs.length ≤ g1 := by simpa using h1
          have hl2 : cs.length ≤ g2 := by simpa using h2
          rw [ih cs g2 hl hl2]

/-- Claim C4, as stated, is false: one pass of the
strict-equality/trim/console sequence over `a==b==c` rewrites only the
first `==` (its match consumes the `b` needed as left guard of the second
`==`), so a second pass changes the text again. -/
theorem safeFixes_sequence_counterexample :
    removeConsole (trimWhitespace (strictEquality
        (removeConsole (trimWhitespace (strictEquality "a==b==c"))))) ≠
      removeConsole (trimWhitespace (strictEquality "a==b==c")) := by decide

/-- C4 (amended): the trailing-whitespace transform is idempotent; the
strict-equality and console-removal transforms are not idempotent in
general. -/
theorem safeFixes_idempotence_amended :
    (∀ code : String,
      trimWhitespace (trimWhitespace code) = trimWhitespace code) ∧
    ¬ (∀ code : String,
      strictEquality (strictEquality code) = strictEquality code) ∧
    ¬ (∀ code : String,
      removeConsole (removeConsole code) = removeConsole code) :=
  ⟨trimWhitespace_idem,
    fun h => absurd (h "a==b==c") (by decide),
    fun h => absurd (h "consoconsole.log(x);le.log(y)") (by decide)⟩

/-! ## Dry-run with backup (C10) -/

theorem strData_eq (a b : String) (h : a.data = b.data) : a = b := by
  cases a; cases b; exact congrArg String.mk h

theorem strAppend_assoc (a b c : String) : (a ++ b) ++ c = a ++ (b ++ c) := by
  apply strData_eq
  simp [String.data_append]

theorem strAppend_right_cancel (a b t : String) (h : a ++ t = b ++ t) :
    a = b := by
  apply strData_eq
  have hd := congrArg String.data h
  simp only [String.data_append] at hd
  exact List.append_cancel_right hd

theorem joinPath_inj (cwd a b : String) (h : joinPath cwd a = joinPath cwd b) :
    a = b := by
  apply strData_eq
  have hd := congrArg String.data h
  simp only [joinPath, String.data_append, List.append_assoc] at hd
  exact List.append_cancel_left (List.append_cancel_left hd)

theorem joinPath_backup (cwd f : String) :
    joinPath cwd f ++ ".prefl-backup" = joinPath cwd (f ++ ".prefl-backup") := by
  simp [joinPath, strAppend_assoc]

theorem ne_append_backup (s : String) : s ≠ s ++ ".prefl-backup" := by
  intro h
  have := congrArg String.length h
  rw [String.length_append] at this
  simp only [Nat.self_eq_add_right] at this
  exact absurd this (by decide)

theorem insertGroup_keys (acc : List (String × List ReviewIssue))
    (i : ReviewIssue) :
    (groupByFile.insertGroup acc i).map Prod.fst =
      if i.file ∈ acc.map Prod.fst then acc.map Prod.fst
      else acc.map Prod.fst ++ [i.file] := by
  induction acc with
  | nil => simp [groupByFile.insertGroup]
  | cons hd rest ih =>
    obtain ⟨f, g⟩ := hd
    by_cases hf : f = i.file
    · subst hf
      simp [groupByFile.insertGroup]
    · have hf' : ¬ i.file = f := fun hh => hf hh.symm
      simp only [groupByFile.insertGroup, hf, if_false, List.map_cons, ih,
        List.mem_cons, hf']
      by_cases hmem : i.file ∈ rest.map Prod.fst
      · simp [hmem]
      · simp [hmem, hf']

theorem groupByFile_fold_keys (issues : List ReviewIssue) :
    ∀ acc : List (String × List ReviewIssue),
      (∀ f, f ∈ (issues.foldl groupByFile.insertGroup acc).map Prod.fst →
        f ∈ acc.map Prod.fst ∨ ∃ i ∈ issues, i.file = f) ∧
      ((acc.map Prod.fst).Nodup →
        ((issues.foldl groupByFile.insertGroup acc).map Prod.fst).Nodup) := by
  induction issues with
  | nil => intro acc; simp
  | cons i rest ih =>
    intro acc
    constructor
    · intro f hf
      simp only [List.foldl_cons] at hf
      rcases (ih (groupByFile.insertGroup acc i)).1 f hf with h | h
      · rw [insertGroup_keys] at h
        by_cases hmem : i.file ∈ acc.map Prod.fst
        · rw [if_pos hmem] at h
          exact Or.inl h
        · rw [if_neg hmem] at h
          rcases List.mem_append.mp h with h | h
          · exact Or.inl h
          · exact Or.inr ⟨i, List.mem_cons_self _ _,
              (List.mem_singleton.mp h).symm⟩
      · rcases h with ⟨j, hj, hjf⟩
        exact Or.inr ⟨j, List.mem_cons_of_mem _ hj, hjf⟩
    · intro hnd
      simp only [List.foldl_cons]
      refine (ih (groupByFile.insertGroup acc i)).2 ?_
      rw [insertGroup_keys]
      by_cases hmem : i.file ∈ acc.map Prod.fst
      · rw [if_pos hmem]; exact hnd
      · rw [if_neg hmem]
        rw [List.nodup_append]
        exact ⟨hnd, List.nodup_singleton _,
          fun a ha hb => hmem ((List.mem_singleton.mp hb) ▸ ha)⟩

theorem groupByFile_keys_nodup (issues : List ReviewIssue) :
    ((groupByFile issues).map Prod.fst).Nodup :=
  (groupByFile_fold_keys issues []).2 (by simp)

theorem groupByFile_keys_mem (issues : List ReviewIssue) (f : String)
    (h : f ∈ (groupByFile issues).map Prod.fst) : ∃ i ∈ issues, i.file = f := by
  rcases (groupByFile_fold_keys issues []).1 f h with hh | hh
  · simp at hh
  · exact hh

theorem applyAutoFixesGo_frame (cwd : String) :
    ∀ (groups : List (String × List ReviewIssue)) (fs : Fs) (q : String),
      (∀ f ∈ groups.map Prod.fst, q ≠ joinPath cwd f ++ ".prefl-backup") →
      (applyAutoFixesGo cwd ⟨true, true⟩ groups fs).2 q = fs q := by
  intro groups
  induction groups with
  | nil => intro fs q _; rfl
  | cons g rest ih =>
    intro fs q hq
    obtain ⟨filePath, group⟩ := g
    have hqrest : ∀ f ∈ rest.map Prod.fst,
        q ≠ joinPath cwd f ++ ".prefl-backup" :=
      fun f hf => hq f (List.mem_cons_of_mem _ hf)
    have hqhead : q ≠ joinPath cwd filePath ++ ".prefl-backup" :=
      hq filePath (by simp)
    show (applyAutoFixesGo cwd ⟨true, true⟩ ((filePath, group) :: rest) fs).2 q = fs q
    simp only [applyAutoFixesGo]
    split
    · exact ih fs q hqrest
    · split
      · exact ih fs q hqrest
      · split
        · show (applyAutoFixesGo cwd ⟨true, true⟩ rest _).2 q = fs q
          rw [ih _ q hqrest]
          show fsWrite fs (joinPath cwd filePath ++ ".prefl-backup") _ q = fs q
          simp only [fsWrite, if_neg hqhead]
        · exact ih fs q hqrest

theorem applyAutoFixesGo_results (cwd : String) :
    ∀ (groups : List (String × List ReviewIssue)) (fs : Fs),
      ∀ r ∈ (applyAutoFixesGo cwd ⟨true, true⟩ groups fs).1,
        r.file ∈ groups.map Prod.fst := by
  intro groups
  induction groups with
  | nil => intro fs r hr; cases hr
  | cons g rest ih =>
    intro fs r hr
    obtain ⟨filePath, group⟩ := g
    simp only [applyAutoFixesGo] at hr
    split at hr
    · exact List.mem_cons_of_mem _ (ih fs r hr)
    · split at hr
      · exact List.mem_cons_of_mem _ (ih fs r hr)
      · split at hr
        · rcases List.mem_cons.mp hr with h | h
          · subst h; simp
          · exact List.mem_cons_of_mem _ (ih _ r h)
        · exact List.mem_cons_of_mem _ (ih fs r hr)

theorem afterWrites_dry (cwd filePath orig newC : String) (fs : Fs) :
    afterWrites cwd ⟨true, true⟩ filePath orig newC fs =
      fsWrite fs (joinPath cwd filePath ++ ".prefl-backup") orig := rfl

theorem applyAutoFixesGo_dryRun (cwd : String) :
    ∀ (groups : List (String × List ReviewIssue)) (fs : Fs),
      ((groups.map Prod.fst).Nodup) →
      (∀ f ∈ groups.map Prod.fst, ∀ g ∈ groups.map Prod.fst,
        f ≠ g ++ ".prefl-backup") →
      ∀ r ∈ (applyAutoFixesGo cwd ⟨true, true⟩ groups fs).1,
        (applyAutoFixesGo cwd ⟨true, true⟩ groups fs).2 (joinPath cwd r.file) =
          fs (joinPath cwd r.file) ∧
        (applyAutoFixesGo cwd ⟨true, true⟩ groups fs).2
          (joinPath cwd r.file ++ ".prefl-backup") =
          fs (joinPath cwd r.file) := by
  intro groups
  induction groups with
  | nil => intro fs _ _ r hr; cases hr
  | cons g rest ih =>
    intro fs hnd hna r hr
    obtain ⟨filePath, group⟩ := g
    have hnd2 : filePath ∉ rest.map Prod.fst ∧ (rest.map Prod.fst).Nodup := by
      rw [List.map_cons] at hnd
      exact List.nodup_cons.mp hnd
    have hmemhead : filePath ∈ ((filePath, group) :: rest).map Prod.fst := by simp
    have hnar : ∀ f ∈ rest.map Prod.fst, ∀ g2 ∈ rest.map Prod.fst,
        f ≠ g2 ++ ".prefl-backup" :=
      fun f hf g2 hg2 => hna f (by simp [hf]) g2 (by simp [hg2])
    by_cases he : (group.filter canAutoFix).isEmpty
    · simp only [applyAutoFixesGo, if_pos he] at hr ⊢
      exact ih fs hnd2.2 hnar r hr
    · simp only [applyAutoFixesGo, if_neg he] at hr ⊢
      cases hfs : fs (joinPath cwd filePath) with
      | none =>
        simp only [hfs] at hr ⊢
        exact ih fs hnd2.2 hnar r hr
      | some orig =>
        simp only [hfs] at hr ⊢
        by_cases hc : (applyFixCount orig (group.filter canAutoFix)).2 > 0
        · simp only [if_pos hc, afterWrites_dry] at hr ⊢
          rcases List.mem_cons.mp hr with hhead | htail
          · subst hhead
            show (applyAutoFixesGo cwd ⟨true, true⟩ rest _).2
                (joinPath cwd filePath) = fs (joinPath cwd filePath) ∧
              (applyAutoFixesGo cwd ⟨true, true⟩ rest _).2
                (joinPath cwd filePath ++ ".prefl-backup") =
                fs (joinPath cwd filePath)
            constructor
            · rw [applyAutoFixesGo_frame cwd rest _ _ ?hq1]
              case hq1 =>
                intro f hf heq
                rw [joinPath_backup] at heq
                exact hna filePath hmemhead f (by simp [hf])
                  (joinPath_inj cwd _ _ heq)
              simp only [fsWrite, if_neg (ne_append_backup (joinPath cwd filePath))]
            · rw [applyAutoFixesGo_frame cwd rest _ _ ?hq2]
              case hq2 =>
                intro f hf heq
                rw [joinPath_backup, joinPath_backup] at heq
                have hff := joinPath_inj cwd _ _ heq
                have := strAppend_right_cancel _ _ _ hff
                exact hnd2.1 (this ▸ hf)
              rw [hfs]
              simp [fsWrite]
          · have hrk : r.file ∈ rest.map Prod.fst :=
              applyAutoFixesGo_results cwd rest _ r htail
            have hfs2 : fsWrite fs (joinPath cwd filePath ++ ".prefl-backup")
                orig (joinPath cwd r.file) = fs (joinPath cwd r.file) := by
              have hne : joinPath cwd r.file ≠
                  joinPath cwd filePath ++ ".prefl-backup" := by
                intro heq
                rw [joinPath_backup] at heq
                exact hna r.file (by simp [hrk]) filePath hmemhead
                  (joinPath_inj cwd _ _ heq)
              simp only [fsWrite, if_neg hne]
            have hih := ih (fsWrite fs
              (joinPath cwd filePath ++ ".prefl-backup") orig) hnd2.2 hnar r htail
            exact ⟨by rw [hih.1, hfs2], by rw [hih.2, hfs2]⟩
        · simp only [if_neg hc] at hr ⊢
          exact ih fs hnd2.2 hnar r hr

/-- C10 (amended): under `{dryRun: true, backup: true}` — provided no
targeted file's path equals another targeted file's path plus the backup
suffix — every file recorded in the results (i.e. every file where at
least one auto-fixable issue changed the in-memory content) is left
unchanged on disk, while its sibling `.prefl-backup` file holds that
file's pre-fix content. -/
theorem applyAutoFixes_dryRun_backup (cwd : String) (issues : List ReviewIssue)
    (fs : Fs)
    (hna : ∀ i ∈ issues, ∀ j ∈ issues, i.file ≠ j.file ++ ".prefl-backup") :
    ∀ r ∈ (applyAutoFixes cwd issues ⟨true, true⟩ fs).1,
      (applyAutoFixes cwd issues ⟨true, true⟩ fs).2 (joinPath cwd r.file) =
        fs (joinPath cwd r.file) ∧
      (applyAutoFixes cwd issues ⟨true, true⟩ fs).2
        (joinPath cwd r.file ++ ".prefl-backup") =
        fs (joinPath cwd r.file) := by
  apply applyAutoFixesGo_dryRun cwd (groupByFile issues) fs
    (groupByFile_keys_nodup issues)
  intro f hf g2 hg2
  obtain ⟨i, hi, hif⟩ := groupByFile_keys_mem issues f hf
  obtain ⟨j, hj, hjf⟩ := groupByFile_keys_mem issues g2 hg2
  rw [← hif, ← hjf]
  exact hna i hi j hj

/-- Claim C10, as stated, is false: when one target's path is another
target's path plus the backup suffix, the first target's backup write
overwrites the second target on disk even under `dryRun`. -/
theorem applyAutoFixes_dryRun_backup_counterexample :
    ((applyAutoFixes "" [cexIssueA, cexIssueB] ⟨true, true⟩ cexFs).1).map
      (fun r => (r.file, r.fixesApplied)) = [("a", 1), ("a.prefl-backup", 1)] ∧
    (applyAutoFixes "" [cexIssueA, cexIssueB] ⟨true, true⟩ cexFs).2
      "/a.prefl-backup" = some "x \n" ∧
    cexFs "/a.prefl-backup" = some "y \n" ∧
    (some "x \n" : Option String) ≠ some "y \n" :=
  ⟨by rfl, by rfl, by rfl, by decide⟩

theorem applyAutoFixes_dryRun_backup_witness :
    (⟨"a.txt", 1, [twIssue]⟩ : AutoFixResult) ∈
      (applyAutoFixes "" [twIssue] ⟨true, true⟩ twFs).1 ∧
    (applyAutoFixes "" [twIssue] ⟨true, true⟩ twFs).2
      (joinPath "" "a.txt") = twFs (joinPath "" "a.txt") ∧
    (applyAutoFixes "" [twIssue] ⟨true, true⟩ twFs).2
      (joinPath "" "a.txt" ++ ".prefl-backup") = twFs (joinPath "" "a.txt") := by
  have heval : (applyAutoFixes "" [twIssue] ⟨true, true⟩ twFs).1 =
      [⟨"a.txt", 1, [twIssue]⟩] := rfl
  have hr : (⟨"a.txt", 1, [twIssue]⟩ : AutoFixResult) ∈
      (applyAutoFixes "" [twIssue] ⟨true, true⟩ twFs).1 := by
    rw [heval]
    exact List.mem_singleton_self _
  have h := applyAutoFixes_dryRun_backup "" [twIssue] twFs
    (fun i hi j hj => by
      rw [List.mem_singleton.mp hi, List.mem_singleton.mp hj]
      decide) _ hr
  exact ⟨hr, h.1, h.2⟩
